import Mathlib

/-!
Verification of the periodic multi-task scan scheduler (`bbotscript.py`).

The embedding models the scheduler's data and control logic:
time is `ℚ` (Python float timestamps), and a task's `next` field is
`Option ℚ` where `none` models the Python sentinel `math.inf`
("unscheduled/running").  Each mutation block of the source
(schedule construction, reservation, the completion handler's three
outcomes, the tick's select/sort/dispatch and sleep computation) becomes
an executable Lean definition, and the loop and the asynchronous
completion callbacks become explicit step relations.
-/

namespace Bbot

/-- One entry of the `SCANS` table (lines 30-33 of the source): a scan
name, its extra command-line arguments, and its period in seconds. -/
structure ScanDef where
  name : String
  args : List String
  period : ℚ
deriving DecidableEq

/-- The `SCANS` table of the source, verbatim. -/
def SCANS : List ScanDef :=
  [⟨"web_probe", ["-p", "web-basic"], 900⟩,
   ⟨"port_scan", ["-p", "subdomain-enum", "-m", "portscan"], 1800⟩]

/-- One schedule entry (the dict built at lines 83-90): identity
(domain, name), command arguments, period, the mutable `next` due time
(`none` models `math.inf`) and the mutable `running` flag. -/
structure Task where
  domain : String
  name : String
  args : List String
  period : ℚ
  next : Option ℚ
  running : Bool
deriving DecidableEq

/-- The function `build_base_cmd` (lines 16-28).  The source ignores the passed
`username`/`password` parameters and hardcodes the HTTP-module
credentials. -/
def build_base_cmd (domain : String) (es_api : String)
    (username : Option String) (password : Option String) : List String :=
  ["sudo", "/home/kali/.local/bin/bbot",
   "-t", domain,
   "-om", "http",
   "-c", "modules.http.url=" ++ es_api,
   "modules.http.siem_friendly=true",
   "modules.http.username=user1",
   "modules.http.password=password",
   "--yes"]

/-- The command submitted for a task (line 104):
`build_base_cmd(s["domain"], args.api, args.username, args.password) + s["args"]`. -/
def launchCmd (s : Task) (api : String)
    (username : Option String) (password : Option String) : List String :=
  build_base_cmd s.domain api username password ++ s.args

/-- Schedule construction (lines 79-90): one entry per (domain, scan),
with `next = now` and `running = False`. -/
def mkSchedule (domains : List String) (now : ℚ) : List Task :=
  domains.flatMap fun d =>
    SCANS.map fun s => ⟨d, s.name, s.args, s.period, some now, false⟩

/-- The state invariant claimed for every task: `running` holds exactly
when `next` is the `math.inf` sentinel. -/
def taskOk (t : Task) : Bool :=
  t.running == t.next.isNone

/-- Ordering on due-time keys, with `none` (= `math.inf`) as the top
element: this is exactly how Python's float order treats `inf`. -/
def keyLE : Option ℚ → Option ℚ → Bool
  | _, none => true
  | none, some _ => false
  | some a, some b => a ≤ b

/-- The due test of line 146: `(not s["running"]) and (s["next"] <= now)`
(`inf <= now` is false). -/
def dueB (now : ℚ) (t : Task) : Bool :=
  !t.running && keyLE t.next (some now)

/-- The due selection of line 146. -/
def dueTasks (sched : List Task) (now : ℚ) : List Task :=
  sched.filter (dueB now)

/-- The sort key comparison of line 148, as a relation on tasks. -/
def taskLE (a b : Task) : Prop :=
  keyLE a.next b.next = true

instance : DecidableRel taskLE := fun a b => by
  unfold taskLE; infer_instance

/-- The dispatch ordering `sorted(due, key=lambda x: x["next"])`
(line 148): Python's `sorted`
is a stable sort by the key, modelled by stable insertion sort. -/
def dispatchList (sched : List Task) (now : ℚ) : List Task :=
  (dueTasks sched now).insertionSort taskLE

/-- Reservation (lines 138-139): `s["running"] = True; s["next"] = math.inf`. -/
def reserveTask (t : Task) : Task :=
  { t with running := true, next := none }

/-- Net effect of one tick's dispatch loop (lines 146-149) on the
schedule: every selected (due) entry is reserved, every other entry is
untouched. -/
def tickSchedule (sched : List Task) (now : ℚ) : List Task :=
  sched.map fun t => if dueB now t then reserveTask t else t

/-- Iterated ticks at the given sequence of clock readings. -/
def runTicks (sched : List Task) : List ℚ → List Task
  | [] => sched
  | n :: ns => runTicks (tickSchedule sched n) ns

/-- A single-quote character, used to spell the source's log text. -/
def squote : String := String.mk [Char.ofNat 39]

/-- The captured result of the external process (the `proc` object of
`subprocess.run`, line 40): exit status and captured output streams. -/
structure ProcResult where
  returncode : Int
  stdout : String
  stderr : String
deriving DecidableEq

/-- What `fut.result()` yields to the completion callback (line 110):
either a normal `(ok, duration, proc)` triple, or a raised
`FileNotFoundError`, or some other raised exception.  The elapsed time
is carried as the already-formatted string that the source's
`f-string .1f` conversion produces. -/
inductive Outcome where
  | notFound : Outcome
  | err : String → Outcome
  | done : Bool → String → ProcResult → Outcome
deriving DecidableEq

/-- The function `run_scan` (lines 38-43) computes `ok = (proc.returncode == 0)`;
this builds the normal outcome the way `run_scan` returns it. -/
def mkDoneOutcome (durStr : String) (pr : ProcResult) : Outcome :=
  Outcome.done (pr.returncode == 0) durStr pr

/-- Everything `on_done` does: the task's new field values, whether it
set the stop event, the log lines it emitted, and the writes it made to
the two passthrough streams. -/
structure DoneResult where
  task : Task
  setStop : Bool
  logs : List String
  outWrites : List String
  errWrites : List String
deriving DecidableEq

/-- The fatal log line of line 112. -/
def notFoundMsg : String :=
  "ERROR: " ++ squote ++ "bbot" ++ squote ++ " not found on PATH. Exiting."

/-- The completion callback `on_done` (lines 108-136), evaluated at the
clock reading `now` taken when the handler reschedules
(`time.time()` at lines 117 and 135):
`FileNotFoundError` logs the fatal line, sets the stop event and leaves
the task untouched; any other exception logs the task identity and the
error and reschedules `next = now + period`, `running = False`; a normal
result forwards non-empty captured stdout/stderr, logs
FAILED/completed with the elapsed time (and the returncode when
failed), then reschedules `next = now + period`, `running = False`. -/
def onDone (s : Task) (now : ℚ) (oc : Outcome) : DoneResult :=
  match oc with
  | Outcome.notFound =>
      ⟨s, true, [notFoundMsg], [], []⟩
  | Outcome.err e =>
      ⟨{ s with next := some (now + s.period), running := false }, false,
       ["ERROR running " ++ s.domain ++ ":" ++ s.name ++ ": " ++ e], [], []⟩
  | Outcome.done ok durStr pr =>
      ⟨{ s with next := some (now + s.period), running := false }, false,
       [if !ok then
          s.domain ++ ":" ++ s.name ++ " FAILED in " ++ durStr ++
            "s (returncode " ++ toString pr.returncode ++ ")"
        else
          s.domain ++ ":" ++ s.name ++ " completed in " ++ durStr ++ "s"],
       if pr.stdout ≠ "" then [pr.stdout] else [],
       if pr.stderr ≠ "" then [pr.stderr] else []⟩

/-- Minimum of a list of due-time keys, `none` (= `math.inf`) acting as
the neutral top element, mirroring Python's `min` over float values. -/
def keyMin : Option ℚ → Option ℚ → Option ℚ
  | none, b => b
  | some a, none => some a
  | some a, some b => some (min a b)

/-- The wake-delay computation of lines 151-156:
`next_times = [s["next"] for s in schedule if not s["running"]]`;
if non-empty, `max(min(next_times) - now, 0.2)`, else `0.5`.
The result is an `Option ℚ` because `min(next_times)` can only be
`math.inf` (`none`) if some non-running entry held the sentinel. -/
def sleepFor (sched : List Task) (now : ℚ) : Option ℚ :=
  let ts := (sched.filter fun t => !t.running).map fun t => t.next
  if ts.isEmpty then some ((1 : ℚ) / 2)
  else
    match ts.foldr keyMin none with
    | none => none
    | some m => some (max (m - now) ((1 : ℚ) / 5))

/-- The ordered side effects of one `launch_scan` call
(lines 104-140): build the command and log (105), submit to the pool
(106), set `running = True` (138), set `next = math.inf` (139), register
the completion callback (140). -/
inductive Ev where
  | log : Ev
  | submit : Ev
  | setRunning : Ev
  | setNextSentinel : Ev
  | addCallback : Ev
deriving DecidableEq, BEq

/-- The straight-line event order of `launch_scan`'s body. -/
def launchEvents : List Ev :=
  [Ev.log, Ev.submit, Ev.setRunning, Ev.setNextSentinel, Ev.addCallback]

/-- The shared mutable state: the schedule and the stop event. -/
structure Sys where
  sched : List Task
  stop : Bool
deriving DecidableEq

/-- Startup state (lines 79-100): the freshly built schedule, stop
event clear. -/
def initSys (domains : List String) (t0 : ℚ) : Sys :=
  ⟨mkSchedule domains t0, false⟩

/-- Interleaved evolution of the shared state: a scheduler tick
(lines 144-149), a completion callback for entry `i` running on a pool
thread (lines 108-136), or the stop event being set (interrupt or
line 113). -/
inductive SysStep : Sys → Sys → Prop
  | tick (sched : List Task) (stop : Bool) (now : ℚ) :
      SysStep ⟨sched, stop⟩ ⟨tickSchedule sched now, stop⟩
  | complete (sched : List Task) (stop : Bool) (i : ℕ) (t : Task)
      (now : ℚ) (oc : Outcome) (hget : sched[i]? = some t) :
      SysStep ⟨sched, stop⟩
        ⟨sched.set i (onDone t now oc).task, stop || (onDone t now oc).setStop⟩
  | setStop (sched : List Task) (stop : Bool) :
      SysStep ⟨sched, stop⟩ ⟨sched, true⟩

/-- Position of the scheduler loop's control thread within its body
(lines 143-156). -/
inductive Phase where
  | check : Phase
  | dispatch : Phase
  | sleeping : ℚ → Phase
  | exited : Phase
deriving DecidableEq

/-- Configuration of the scheduler loop: control position, stop flag,
schedule, and clock. -/
structure LoopState where
  phase : Phase
  stop : Bool
  sched : List Task
  now : ℚ
deriving DecidableEq

/-- Small-step semantics of the scheduler loop (lines 143-156), with
environment steps for the asynchronous completion callbacks and the
stop event.  `while not stop_event.is_set()` tests the flag only at the
top of the loop; the dispatch step reserves the due tasks and computes
the wake delay from the post-dispatch schedule; `time.sleep(sleep_for)`
does not consult the stop event, so the sleeping step runs to the end
of its interval unconditionally. -/
inductive LoopStep : LoopState → LoopState → Prop
  | checkExit (sched : List Task) (now : ℚ) :
      LoopStep ⟨Phase.check, true, sched, now⟩ ⟨Phase.exited, true, sched, now⟩
  | checkGo (sched : List Task) (now : ℚ) :
      LoopStep ⟨Phase.check, false, sched, now⟩ ⟨Phase.dispatch, false, sched, now⟩
  | doTick (sched : List Task) (stop : Bool) (now r : ℚ)
      (h : sleepFor (tickSchedule sched now) now = some r) :
      LoopStep ⟨Phase.dispatch, stop, sched, now⟩
        ⟨Phase.sleeping r, stop, tickSchedule sched now, now⟩
  | doSleep (r : ℚ) (stop : Bool) (sched : List Task) (now : ℚ) :
      LoopStep ⟨Phase.sleeping r, stop, sched, now⟩
        ⟨Phase.check, stop, sched, now + r⟩
  | envStop (ph : Phase) (stop : Bool) (sched : List Task) (now : ℚ) :
      LoopStep ⟨ph, stop, sched, now⟩ ⟨ph, true, sched, now⟩
  | envComplete (ph : Phase) (stop : Bool) (sched : List Task)
      (now : ℚ) (i : ℕ) (t : Task) (tnow : ℚ) (oc : Outcome)
      (hget : sched[i]? = some t) :
      LoopStep ⟨ph, stop, sched, now⟩
        ⟨ph, stop || (onDone t tnow oc).setStop,
         sched.set i (onDone t tnow oc).task, now⟩

/-- Whether `needle` occurs at the head of `hay` (character lists). -/
def startsWithChars : List Char → List Char → Bool
  | [], _ => true
  | _ :: _, [] => false
  | a :: as, b :: bs => a == b && startsWithChars as bs

/-- Whether `needle` occurs anywhere inside `hay` (character lists). -/
def hasSub : List Char → List Char → Bool
  | needle, [] => startsWithChars needle []
  | needle, c :: t => startsWithChars needle (c :: t) || hasSub needle t

/-- A sample reserved task (state right after lines 138-139), used to
evaluate the theorems on concrete inputs. -/
def resT : Task :=
  ⟨"example.com", "web_probe", ["-p", "web-basic"], 900, none, true⟩

/-- A sample non-running task due at time 10. -/
def idleT : Task :=
  ⟨"example.com", "port_scan", ["-p", "subdomain-enum", "-m", "portscan"],
   1800, some 10, false⟩

/-! ### Helper lemmas about the key order -/

lemma keyLE_refl (a : Option ℚ) : keyLE a a = true := by
  cases a <;> simp [keyLE]

lemma keyLE_total (a b : Option ℚ) : keyLE a b = true ∨ keyLE b a = true := by
  cases a <;> cases b <;> simp [keyLE]
  exact le_total _ _

lemma keyLE_trans {a b c : Option ℚ} (h1 : keyLE a b = true)
    (h2 : keyLE b c = true) : keyLE a c = true := by
  cases a <;> cases b <;> cases c <;> simp_all [keyLE]
  exact le_trans h1 h2

instance : IsTotal Task taskLE :=
  ⟨fun a b => keyLE_total a.next b.next⟩

instance : IsTrans Task taskLE :=
  ⟨fun _ _ _ => keyLE_trans⟩

lemma not_taskLE_key_ne {a b : Task} (h : ¬ taskLE a b) : b.next ≠ a.next := by
  intro he
  exact h (by unfold taskLE; rw [he]; exact keyLE_refl a.next)

/-! ### Stability of the dispatch sort -/

lemma filter_key_orderedInsert (t : Task) (m : List Task) (k : Option ℚ) :
    (m.orderedInsert taskLE t).filter (fun u => u.next == k) =
      if t.next == k then t :: m.filter (fun u => u.next == k)
      else m.filter (fun u => u.next == k) := by
  induction m with
  | nil =>
      simp [List.filter_cons]
  | cons b l ih =>
      by_cases h : taskLE t b
      · rw [List.orderedInsert, if_pos h, List.filter_cons]
      · rw [List.orderedInsert, if_neg h, List.filter_cons, ih, List.filter_cons]
        by_cases htk : (t.next == k) = true
        · have hbk : (b.next == k) = false := by
            have : b.next ≠ t.next := not_taskLE_key_ne h
            rw [beq_iff_eq] at htk
            rw [htk] at this
            simpa using this
          simp [htk, hbk]
        · simp [htk]

lemma filter_key_insertionSort (l : List Task) (k : Option ℚ) :
    (l.insertionSort taskLE).filter (fun u => u.next == k) =
      l.filter (fun u => u.next == k) := by
  induction l with
  | nil => rfl
  | cons b l ih =>
      rw [List.insertionSort, filter_key_orderedInsert, List.filter_cons, ih]

/-! ### Dispatch selection lemmas -/

lemma dispatchList_perm (sched : List Task) (now : ℚ) :
    (dispatchList sched now).Perm (dueTasks sched now) :=
  List.perm_insertionSort taskLE (dueTasks sched now)

lemma mem_dispatchList {sched : List Task} {now : ℚ} {t : Task} :
    t ∈ dispatchList sched now ↔ t ∈ sched ∧ dueB now t = true := by
  unfold dispatchList dueTasks
  rw [List.mem_insertionSort, List.mem_filter]

lemma dispatchList_sorted (sched : List Task) (now : ℚ) :
    (dispatchList sched now).Sorted taskLE :=
  List.sorted_insertionSort taskLE (dueTasks sched now)

lemma dueB_false_of_running {t : Task} (h : t.running = true) (now : ℚ) :
    dueB now t = false := by
  simp [dueB, h]

/-! ### Tick preservation lemmas -/

lemma tickSchedule_getElem?_running {sched : List Task} (now : ℚ) {i : ℕ}
    {t : Task} (hget : sched[i]? = some t) (hrun : t.running = true) :
    (tickSchedule sched now)[i]? = some t := by
  unfold tickSchedule
  rw [List.getElem?_map, hget]
  simp [dueB_false_of_running hrun]

lemma runTicks_getElem?_running {sched : List Task} (nows : List ℚ) {i : ℕ}
    {t : Task} (hget : sched[i]? = some t) (hrun : t.running = true) :
    (runTicks sched nows)[i]? = some t := by
  induction nows generalizing sched with
  | nil => exact hget
  | cons n ns ih => exact ih (tickSchedule_getElem?_running n hget hrun)

/-! ### Invariant preservation lemmas -/

lemma taskOk_reserveTask (t : Task) : taskOk (reserveTask t) = true := rfl

lemma taskOk_onDone {t : Task} (now : ℚ) (oc : Outcome)
    (h : taskOk t = true) : taskOk (onDone t now oc).task = true := by
  cases oc <;> simp_all [onDone, taskOk]

lemma mkSchedule_all_ok (domains : List String) (t0 : ℚ) :
    (mkSchedule domains t0).all taskOk = true := by
  rw [List.all_eq_true]
  intro t ht
  simp only [mkSchedule, List.mem_flatMap, List.mem_map] at ht
  obtain ⟨d, _, s, _, rfl⟩ := ht
  rfl

lemma sysStep_all_ok {a b : Sys} (h : SysStep a b)
    (ha : a.sched.all taskOk = true) : b.sched.all taskOk = true := by
  cases h with
  | tick sched stop now =>
      rw [List.all_eq_true] at ha ⊢
      intro x hx
      simp only [tickSchedule, List.mem_map] at hx
      obtain ⟨u, hu, rfl⟩ := hx
      by_cases hd : dueB now u = true
      · simp [hd, taskOk_reserveTask]
      · simp only [Bool.not_eq_true] at hd
        simpa [hd] using ha u hu
  | complete sched stop i t now oc hget =>
      rw [List.all_eq_true] at ha ⊢
      intro x hx
      rcases List.mem_or_eq_of_mem_set hx with h1 | rfl
      · exact ha x h1
      · exact taskOk_onDone now oc (ha t (List.getElem?_mem hget))
  | setStop sched stop => exact ha

/-! ### Wake-delay computation lemmas -/

lemma foldKeyMin_mem : ∀ {l : List (Option ℚ)} {b : ℚ},
    l.foldr keyMin none = some b → some b ∈ l := by
  intro l
  induction l with
  | nil => intro b h; cases h
  | cons x xs ih =>
      intro b h
      rw [List.foldr_cons] at h
      cases x with
      | none =>
          rw [keyMin] at h
          exact List.mem_cons_of_mem _ (ih h)
      | some a =>
          cases hf : xs.foldr keyMin none with
          | none =>
              rw [hf, keyMin] at h
              rw [← h]
              exact List.mem_cons_self _ _
          | some c =>
              rw [hf, keyMin] at h
              injection h with h
              rcases min_choice a c with hm | hm
              · rw [← h, hm]
                exact List.mem_cons_self _ _
              · rw [← h, hm]
                exact List.mem_cons_of_mem _ (ih hf)

lemma foldKeyMin_eq_min {l : List (Option ℚ)} {m : ℚ} (hm : some m ∈ l)
    (hmin : ∀ q : ℚ, some q ∈ l → m ≤ q) : l.foldr keyMin none = some m := by
  induction l with
  | nil => cases hm
  | cons x xs ih =>
      rw [List.foldr_cons]
      rcases List.mem_cons.mp hm with hx | hxs
      · subst hx
        cases hf : xs.foldr keyMin none with
        | none => rfl
        | some c =>
            have hc : m ≤ c :=
              hmin c (List.mem_cons_of_mem _ (foldKeyMin_mem hf))
            rw [keyMin, min_eq_left hc]
      · have hf : xs.foldr keyMin none = some m :=
          ih hxs (fun q hq => hmin q (List.mem_cons_of_mem _ hq))
        rw [hf]
        cases x with
        | none => rfl
        | some a =>
            have hma : m ≤ a := hmin a (List.mem_cons_self _ _)
            rw [keyMin, min_eq_right hma]

lemma foldKeyMin_isSome {x : Option ℚ} {xs : List (Option ℚ)}
    (h : ∀ y ∈ x :: xs, y ≠ none) :
    ∃ m, (x :: xs).foldr keyMin none = some m := by
  induction xs generalizing x with
  | nil =>
      cases x with
      | none => exact absurd rfl (h none (List.mem_cons_self _ _))
      | some a => exact ⟨a, rfl⟩
  | cons y ys ih =>
      obtain ⟨c, hc⟩ := ih (fun z hz => h z (List.mem_cons_of_mem _ hz))
      cases x with
      | none => exact absurd rfl (h none (List.mem_cons_self _ _))
      | some a =>
          refine ⟨min a c, ?_⟩
          rw [List.foldr_cons, hc, keyMin]

/-! ### Claim theorems -/

/-- C3: for every task whose job runs to normal completion at time
`now` (any exit status), the completion handler sets `next` to exactly
`now + period` and `running` to `false`, regardless of the previously
scheduled `next` value. -/
theorem normal_completion_reschedules (s : Task) (now : ℚ)
    (durStr : String) (pr : ProcResult) :
    (onDone s now (mkDoneOutcome durStr pr)).task.next = some (now + s.period) ∧
    (onDone s now (mkDoneOutcome durStr pr)).task.running = false :=
  ⟨rfl, rfl⟩

/-- C4: on the executor-not-found condition the completion handler
emits the fatal log line, sets the stop event, and leaves the task's
fields untouched (so a reserved task stays `running = true` with the
sentinel `next`); no rescheduling occurs. -/
theorem executor_not_found_fatal (s : Task) (now : ℚ) :
    (onDone s now Outcome.notFound).task = s ∧
    (onDone s now Outcome.notFound).setStop = true ∧
    (onDone s now Outcome.notFound).logs = [notFoundMsg] :=
  ⟨rfl, rfl, rfl⟩

/-- C5: on any raised error other than the not-found condition, the
completion handler logs the task identity and the error, reschedules
`next = now + period` with `running = false`, and does not set the stop
event, so a completion step taken from a non-stopped system leaves the
stop flag clear and the loop continues. -/
theorem other_error_recovered (s t : Task) (sched : List Task) (i : ℕ)
    (now : ℚ) (e : String) (hget : sched[i]? = some t) :
    (onDone s now (Outcome.err e)).task.next = some (now + s.period) ∧
    (onDone s now (Outcome.err e)).task.running = false ∧
    (onDone s now (Outcome.err e)).setStop = false ∧
    (onDone s now (Outcome.err e)).logs =
      ["ERROR running " ++ s.domain ++ ":" ++ s.name ++ ": " ++ e] ∧
    SysStep ⟨sched, false⟩
      ⟨sched.set i (onDone t now (Outcome.err e)).task, false⟩ := by
  refine ⟨rfl, rfl, rfl, rfl, ?_⟩
  have h := SysStep.complete sched false i t now (Outcome.err e) hget
  simpa [onDone] using h

/-- C5 witness: the theorem evaluated on a concrete schedule. -/
theorem other_error_recovered_witness :
    (onDone resT 3 (Outcome.err "boom")).task.next = some (3 + resT.period) ∧
    (onDone resT 3 (Outcome.err "boom")).task.running = false ∧
    (onDone resT 3 (Outcome.err "boom")).setStop = false ∧
    (onDone resT 3 (Outcome.err "boom")).logs =
      ["ERROR running " ++ resT.domain ++ ":" ++ resT.name ++ ": " ++ "boom"] ∧
    SysStep ⟨[resT], false⟩
      ⟨[resT].set 0 (onDone resT 3 (Outcome.err "boom")).task, false⟩ :=
  other_error_recovered resT resT [resT] 0 3 "boom" rfl

/-- C10: the constructed command is independent of the `--username` and
`--password` values (including absent ones); the HTTP-module credentials
are hardcoded as `user1`/`password`. -/
theorem credentials_ignored (domain api : String)
    (u p u2 p2 : Option String) (s : Task) :
    build_base_cmd domain api u p = build_base_cmd domain api u2 p2 ∧
    launchCmd s api u p = launchCmd s api u2 p2 ∧
    "modules.http.username=user1" ∈ build_base_cmd domain api u p ∧
    "modules.http.password=password" ∈ build_base_cmd domain api u p := by
  refine ⟨rfl, rfl, ?_, ?_⟩ <;> simp [build_base_cmd]

/-- C9 counterexample: on a failed run the emitted log line does not
contain the text "(status"; it says "(returncode" instead (line 131 of
the source), so the claimed format "FAILED in ELAPSEDs (status CODE)"
does not occur. -/
theorem failed_log_says_returncode_not_status :
    hasSub "(status".toList
      ((onDone resT 0 (mkDoneOutcome "12.3" ⟨2, "", ""⟩)).logs.headD "").toList
        = false ∧
    hasSub "FAILED in 12.3s (returncode 2)".toList
      ((onDone resT 0 (mkDoneOutcome "12.3" ⟨2, "", ""⟩)).logs.headD "").toList
        = true := by
  constructor <;> rfl

/-- C9 (amended): a non-zero exit status is logged as
"DOMAIN:NAME FAILED in ELAPSEDs (returncode CODE)", a zero exit status
as "DOMAIN:NAME completed in ELAPSEDs", and each captured stream is
forwarded exactly when non-empty. -/
theorem completion_logging_and_passthrough (s : Task) (now : ℚ)
    (durStr : String) (pr : ProcResult) :
    (pr.returncode ≠ 0 →
      (onDone s now (mkDoneOutcome durStr pr)).logs =
        [s.domain ++ ":" ++ s.name ++ " FAILED in " ++ durStr ++
          "s (returncode " ++ toString pr.returncode ++ ")"]) ∧
    (pr.returncode = 0 →
      (onDone s now (mkDoneOutcome durStr pr)).logs =
        [s.domain ++ ":" ++ s.name ++ " completed in " ++ durStr ++ "s"]) ∧
    (pr.stdout ≠ "" →
      (onDone s now (mkDoneOutcome durStr pr)).outWrites = [pr.stdout]) ∧
    (pr.stdout = "" →
      (onDone s now (mkDoneOutcome durStr pr)).outWrites = []) ∧
    (pr.stderr ≠ "" →
      (onDone s now (mkDoneOutcome durStr pr)).errWrites = [pr.stderr]) ∧
    (pr.stderr = "" →
      (onDone s now (mkDoneOutcome durStr pr)).errWrites = []) := by
  refine ⟨fun h => ?_, fun h => ?_, fun h => ?_, fun h => ?_,
    fun h => ?_, fun h => ?_⟩ <;>
    simp [onDone, mkDoneOutcome, h]

/-- C9 witness: the amended theorem evaluated on a failed run with
non-empty captured streams. -/
theorem completion_logging_and_passthrough_witness :
    (onDone resT 0 (mkDoneOutcome "12.3" ⟨2, "o", "e"⟩)).logs =
      [resT.domain ++ ":" ++ resT.name ++ " FAILED in " ++ "12.3" ++
        "s (returncode " ++ toString (2 : Int) ++ ")"] ∧
    (onDone resT 0 (mkDoneOutcome "12.3" ⟨2, "o", "e"⟩)).outWrites = ["o"] ∧
    (onDone resT 0 (mkDoneOutcome "12.3" ⟨2, "o", "e"⟩)).errWrites = ["e"] :=
  ⟨(completion_logging_and_passthrough resT 0 "12.3" ⟨2, "o", "e"⟩).1
      (by decide),
   (completion_logging_and_passthrough resT 0 "12.3" ⟨2, "o", "e"⟩).2.2.1
      (by decide),
   (completion_logging_and_passthrough resT 0 "12.3" ⟨2, "o", "e"⟩).2.2.2.2.1
      (by decide)⟩

/-- C1 counterexample: in `launch_scan`'s straight-line body the
submission to the worker pool (line 106) happens strictly before the
reservation writes (lines 138-139), so the reservation does not happen
before the submission returns. -/
theorem submission_precedes_reservation :
    launchEvents.indexOf Ev.submit < launchEvents.indexOf Ev.setRunning ∧
    ¬ launchEvents.indexOf Ev.setRunning < launchEvents.indexOf Ev.submit := by
  decide

/-- C1 (amended): submission returns before the reservation, but the
reservation is completed later inside the same `launch_scan` call,
before the completion callback is registered; a task that is running
(reserved) keeps its schedule entry unchanged across any number of
subsequent ticks and is never selected for dispatch again. -/
theorem reserved_task_never_reselected (sched : List Task)
    (nows : List ℚ) (now : ℚ) (i : ℕ) (t : Task)
    (hget : sched[i]? = some t) (hrun : t.running = true) :
    (runTicks sched nows)[i]? = some t ∧
    t ∉ dispatchList (runTicks sched nows) now ∧
    launchEvents.indexOf Ev.setRunning < launchEvents.indexOf Ev.addCallback := by
  refine ⟨runTicks_getElem?_running nows hget hrun, ?_, by decide⟩
  intro hmem
  have hd := (mem_dispatchList.mp hmem).2
  rw [dueB_false_of_running hrun now] at hd
  cases hd

/-- C1 witness: the amended theorem evaluated on a concrete reserved
task across two ticks. -/
theorem reserved_task_never_reselected_witness :
    (runTicks [resT] [1, 2])[0]? = some resT ∧
    resT ∉ dispatchList (runTicks [resT] [1, 2]) 3 ∧
    launchEvents.indexOf Ev.setRunning < launchEvents.indexOf Ev.addCallback :=
  reserved_task_never_reselected [resT] [1, 2] 3 0 resT rfl rfl

/-- C2: in every state reachable from startup by scheduler ticks,
completion-handler updates and stop-flag writes, every task satisfies
`running = true ↔ next = sentinel`: a task is never simultaneously
due-eligible and in flight. -/
theorem task_state_exclusive (domains : List String) (t0 : ℚ) (s : Sys)
    (h : Relation.ReflTransGen SysStep (initSys domains t0) s) :
    s.sched.all taskOk = true := by
  induction h with
  | refl => exact mkSchedule_all_ok domains t0
  | tail _ hstep ih => exact sysStep_all_ok hstep ih

/-- C2 witness: the invariant evaluated at the startup state for one
domain. -/
theorem task_state_exclusive_witness :
    (initSys ["example.com"] 0).sched.all taskOk = true :=
  task_state_exclusive ["example.com"] 0 _ Relation.ReflTransGen.refl

/-- C6 counterexample: from a configuration in mid-sleep with the stop
flag already set, no step of the loop reaches the exited phase: the
`time.sleep` of line 156 does not watch the stop event, so the loop
cannot exit without first completing the current sleep interval. -/
theorem sleep_completes_despite_stop :
    ¬ ∃ σ : LoopState,
      LoopStep ⟨Phase.sleeping ((1 : ℚ) / 2), true, [resT], 0⟩ σ ∧
        σ.phase = Phase.exited := by
  rintro ⟨σ, hstep, hph⟩
  cases hstep <;> simp_all

/-- C6 (amended): the loop observes the stop flag at the top of every
tick (a set flag makes the check step exit), but the sleep is not
interruptible by the stop flag: any step taken from a sleeping
configuration with the flag set is not an exit, and the only way back
to the check point advances the clock by the full sleep interval. -/
theorem stop_observed_at_tick_top_only (sched : List Task) (now r : ℚ)
    (σ : LoopState) (h : LoopStep ⟨Phase.sleeping r, true, sched, now⟩ σ) :
    σ.phase ≠ Phase.exited ∧
    (σ.phase = Phase.check → σ.now = now + r) ∧
    LoopStep ⟨Phase.check, true, sched, now⟩
      ⟨Phase.exited, true, sched, now⟩ := by
  refine ⟨?_, ?_, LoopStep.checkExit sched now⟩ <;> cases h <;> simp_all

/-- C6 witness: the amended theorem evaluated on the concrete
full-sleep step. -/
theorem stop_observed_at_tick_top_only_witness :
    (LoopState.mk Phase.check true [resT] (0 + (1 : ℚ) / 2)).phase ≠
      Phase.exited ∧
    ((LoopState.mk Phase.check true [resT] (0 + (1 : ℚ) / 2)).phase =
        Phase.check →
      (LoopState.mk Phase.check true [resT] (0 + (1 : ℚ) / 2)).now =
        0 + (1 : ℚ) / 2) ∧
    LoopStep ⟨Phase.check, true, [resT], 0⟩
      ⟨Phase.exited, true, [resT], 0⟩ :=
  stop_observed_at_tick_top_only [resT] 0 ((1 : ℚ) / 2) _
    (LoopStep.doSleep ((1 : ℚ) / 2) true [resT] 0)

/-- C7: a tick dispatches exactly the entries with `running = false`
and a real due time at most `now`; the dispatch order is a permutation
of that selection, ascending in the due-time key, and entries with
equal keys keep their schedule (insertion) order, so the order is
deterministic in the state snapshot. -/
theorem tick_selection_and_order (sched : List Task) (now : ℚ) :
    (dispatchList sched now).Perm
      (sched.filter fun t => !t.running && keyLE t.next (some now)) ∧
    (dispatchList sched now).Sorted taskLE ∧
    (∀ t, t ∈ dispatchList sched now ↔
      t ∈ sched ∧ t.running = false ∧ ∃ q, t.next = some q ∧ q ≤ now) ∧
    (∀ k : Option ℚ,
      (dispatchList sched now).filter (fun u => u.next == k) =
        (sched.filter (dueB now)).filter (fun u => u.next == k)) := by
  refine ⟨dispatchList_perm sched now, dispatchList_sorted sched now,
    fun t => ?_, fun k => filter_key_insertionSort _ k⟩
  rw [mem_dispatchList]
  constructor
  · rintro ⟨hmem, hdue⟩
    rw [dueB, Bool.and_eq_true, Bool.not_eq_true'] at hdue
    obtain ⟨hrun, hle⟩ := hdue
    cases hn : t.next with
    | none => rw [hn] at hle; cases hle
    | some q =>
        rw [hn] at hle
        exact ⟨hmem, hrun, q, rfl, by simpa [keyLE] using hle⟩
  · rintro ⟨hmem, hrun, q, hn, hq⟩
    refine ⟨hmem, ?_⟩
    rw [dueB, Bool.and_eq_true, Bool.not_eq_true']
    exact ⟨hrun, by simp [hn, keyLE, hq]⟩

/-- C8: under the task-state invariant the computed wake delay is a
finite value bounded below by the 0.2-second floor (never zero); it is
the fixed 0.5-second idle delay when every task is running, and
otherwise equals the maximum of the floor and the earliest due time
among non-running tasks minus `now`. -/
theorem wake_delay_formula (sched : List Task) (now : ℚ)
    (hinv : sched.all taskOk = true) :
    (∃ q, sleepFor sched now = some q ∧ (1 : ℚ) / 5 ≤ q ∧ 0 < q) ∧
    ((∀ u ∈ sched, u.running = true) →
      sleepFor sched now = some ((1 : ℚ) / 2)) ∧
    (∀ (i : ℕ) (t : Task) (m : ℚ), sched[i]? = some t →
      t.running = false → t.next = some m →
      (∀ u ∈ sched, u.running = false → ∀ q : ℚ, u.next = some q → m ≤ q) →
      sleepFor sched now = some (max (m - now) ((1 : ℚ) / 5))) := by
  rw [List.all_eq_true] at hinv
  refine ⟨?_, ?_, ?_⟩
  · by_cases he :
      ((sched.filter fun t => !t.running).map fun t => t.next).isEmpty = true
    · refine ⟨(1 : ℚ) / 2, ?_, by norm_num, by norm_num⟩
      rw [sleepFor]
      simp only [he, if_true]
    · cases hts : (sched.filter fun t => !t.running).map fun t => t.next with
      | nil => rw [hts] at he; exact absurd rfl he
      | cons x xs =>
          have hns : ∀ y ∈ x :: xs, y ≠ none := by
            rw [← hts]
            intro y hy
            obtain ⟨u, hu, rfl⟩ := List.mem_map.mp hy
            have hu2 := List.mem_filter.mp hu
            have hok := hinv u hu2.1
            rw [taskOk, beq_iff_eq] at hok
            have : u.running = false := by
              simpa using hu2.2
            rw [this] at hok
            intro hnone
            rw [hnone] at hok
            simp at hok
          obtain ⟨m, hm⟩ := foldKeyMin_isSome hns
          refine ⟨max (m - now) ((1 : ℚ) / 5), ?_, le_max_right _ _, ?_⟩
          · rw [sleepFor]
            simp only [hts]
            rw [if_neg (by simp), hm]
          · have : (0 : ℚ) < (1 : ℚ) / 5 := by norm_num
            exact lt_of_lt_of_le this (le_max_right _ _)
  · intro hall
    have hfil : (sched.filter fun t => !t.running) = [] := by
      rw [List.filter_eq_nil_iff]
      intro a ha
      simp [hall a ha]
    rw [sleepFor]
    simp [hfil]
  · intro i t m hget hrun hnext hmin
    have htmem : t ∈ sched := List.getElem?_mem hget
    have htfil : t ∈ sched.filter fun t => !t.running :=
      List.mem_filter.mpr ⟨htmem, by simp [hrun]⟩
    have hmmem : some m ∈ (sched.filter fun t => !t.running).map
        fun t => t.next := by
      rw [List.mem_map]
      exact ⟨t, htfil, hnext⟩
    have hmin2 : ∀ q : ℚ, some q ∈ (sched.filter fun t => !t.running).map
        (fun t => t.next) → m ≤ q := by
      intro q hq
      obtain ⟨u, hu, hq2⟩ := List.mem_map.mp hq
      have hu2 := List.mem_filter.mp hu
      exact hmin u hu2.1 (by simpa using hu2.2) q hq2
    have hfold := foldKeyMin_eq_min hmmem hmin2
    rw [sleepFor]
    simp only [hfold]
    rw [if_neg (by simp [List.isEmpty_iff]; exact ⟨t, htmem, hrun⟩)]

/-- C8 witness: the theorem evaluated on a one-task schedule due at
time 10 observed at time 0. -/
theorem wake_delay_formula_witness :
    (∃ q, sleepFor [idleT] 0 = some q ∧ (1 : ℚ) / 5 ≤ q ∧ 0 < q) ∧
    ((∀ u ∈ [idleT], u.running = true) →
      sleepFor [idleT] 0 = some ((1 : ℚ) / 2)) ∧
    (∀ (i : ℕ) (t : Task) (m : ℚ), [idleT][i]? = some t →
      t.running = false → t.next = some m →
      (∀ u ∈ [idleT], u.running = false → ∀ q : ℚ, u.next = some q → m ≤ q) →
      sleepFor [idleT] 0 = some (max (m - 0) ((1 : ℚ) / 5))) :=
  wake_delay_formula [idleT] 0 (by decide)

end Bbot
